import Mathlib

/-!
Verification of the WiktionaryViz backend core against its design notes.

This file gives a shallow embedding of the algorithmic core of the backend:

* `build_index_from_jsonl` (backend/build_index.py): the byte-offset index
  build over a line-oriented corpus, including the first-occurrence policy,
  the record counter, the entry-key set and the reverse descendant links.
* `count_descendants` (backend/build_index.py, `count_descendants_cached`):
  the memoized descendant counter, rendered with explicit fuel so that
  divergence of the Python recursion appears as `none` for every fuel.
* `phonological_cost` / `align_segments` (backend/services/aligner.py):
  the feature-weighted alignment engine.  The imperative DP with its
  backpointer grid is rendered as the equivalent recursion over the two
  sequences; the tie priority (substitution, then deletion, then insertion)
  matches the update order of the DP fill.
* `build_descendant_hierarchy` (backend/services, descendant traversal):
  the recursive descendant-tree builder with its shared visited set and
  depth cap, driven by explicit fuel `max_depth - depth`.
* `build_ancestry_chain` (backend/api_routes/word_data.py): the flat
  ancestry chain with per-hop drift scores.

Python strings are modelled as `List Char`; Python `None` as `Option`;
external collaborators (the JSON decoder, the panphon feature table, the
AI estimator, the feature edit distance) are parameters of the
definitions, as the design document treats them as external interfaces.
-/

set_option maxHeartbeats 1000000

/-- Python strings, modelled as lists of characters so that byte offsets
become list lengths and concatenation is list append. -/
abbrev Str : Type := List Char

/-- Index keys, `lowercase(word) + "_" + lowercase(lang_code)`. -/
abbrev Key : Type := Str

/-- Python `str.lower()`. -/
def lower (s : Str) : Str := s.map Char.toLower

/-- Characters removed by Python `str.strip()`. -/
def isPySpace (c : Char) : Bool := c = ' ' ∨ c = '\t' ∨ c = '\n' ∨ c = '\r'

/-- Python `str.strip()`. -/
def strip (s : Str) : Str :=
  ((s.dropWhile isPySpace).reverse.dropWhile isPySpace).reverse

/-- One `etymology_templates` element: the `args` fields used by the core
("2" ancestor language, "3" ancestor word form, "tr" transliteration). -/
structure EtyTpl where
  arg2 : Option Str
  arg3 : Option Str
  tr : Option Str
deriving DecidableEq

/-- A lexical entry, restricted to the fields the core reads.  A field a
record may lack (`entry.get(...)` returning `None`) is an `Option`;
`sounds` keeps, for each pronunciation record, its optional `ipa` string;
`descendants` keeps the free-text `text` fields; `translations` keeps one
opaque element per translation record, since the build only takes its
length. -/
structure Entry where
  word : Option Str
  lang_code : Option Str
  expansion : Option Str
  sounds : List (Option Str)
  etymology_templates : List EtyTpl
  descendants : List Str
  pos : Option Str
  translations : List Unit
deriving DecidableEq

/-! ## Alignment engine (backend/services/aligner.py, backend/constants.py) -/

/-- A tri-valued phonological feature specification {+, 0, -}. -/
inductive FVal where
  | plus
  | zero
  | minus
deriving DecidableEq

/-- The Feature Lookup collaborator (panphon `FeatureTable`): `F` distinct
named features, and for each known segment a total assignment of the `F`
features.  `fts` returns `none` for an unknown segment. -/
structure FT (Seg : Type) where
  F : Nat
  fts : Seg → Option (Fin F → FVal)

/-- Count of features whose specification differs between two vectors
(panphon `differing_specs` length). -/
def differing {F : Nat} (f1 f2 : Fin F → FVal) : Nat :=
  (Finset.univ.filter fun i => f1 i ≠ f2 i).card

/-- `MAX_FEATURE_DIFFS = len(ft.names)` from constants.py. -/
def MAX_FEATURE_DIFFS {Seg : Type} (ft : FT Seg) : Nat := ft.F

/-- `INSERTION_COST = MAX_FEATURE_DIFFS + 1` from constants.py. -/
def INSERTION_COST {Seg : Type} (ft : FT Seg) : Nat := MAX_FEATURE_DIFFS ft + 1

/-- `DELETION_COST = MAX_FEATURE_DIFFS + 1` from constants.py. -/
def DELETION_COST {Seg : Type} (ft : FT Seg) : Nat := MAX_FEATURE_DIFFS ft + 1

/-- `UNKNOWN_COST = MAX_FEATURE_DIFFS` from constants.py. -/
def UNKNOWN_COST {Seg : Type} (ft : FT Seg) : Nat := MAX_FEATURE_DIFFS ft

/-- `phonological_cost(a, b, ft)` from aligner.py: 0 on equal segments,
gap costs when one side is `None`, `UNKNOWN_COST` when either feature
vector is unknown, otherwise the differing-feature count. -/
def phonological_cost {Seg : Type} [DecidableEq Seg] (ft : FT Seg) (a b : Option Seg) : Nat :=
  if a = b then 0
  else
    match a, b with
    | none, _ => INSERTION_COST ft
    | _, none => DELETION_COST ft
    | some x, some y =>
      match ft.fts x, ft.fts y with
      | some f1, some f2 => differing f1 f2
      | _, _ => UNKNOWN_COST ft

/-- `align_segments(seg1, seg2, ft)` from aligner.py: returns the minimum
total cost together with the recovered alignment.  The quadratic DP with
its backpointer grid is rendered as the equivalent recursion on the two
sequences; at equal cost the DP's update order prefers substitution, then
deletion (consume left), then insertion (consume right), which is the
branch order below. -/
def align_segments {Seg : Type} [DecidableEq Seg] (ft : FT Seg) :
    List Seg → List Seg → Nat × List (Option Seg × Option Seg)
  | [], [] => (0, [])
  | x :: xs, [] =>
    let r := align_segments ft xs []
    (DELETION_COST ft + r.1, (some x, none) :: r.2)
  | [], y :: ys =>
    let r := align_segments ft [] ys
    (INSERTION_COST ft + r.1, (none, some y) :: r.2)
  | x :: xs, y :: ys =>
    let rs := align_segments ft xs ys
    let rd := align_segments ft xs (y :: ys)
    let ri := align_segments ft (x :: xs) ys
    let s := phonological_cost ft (some x) (some y) + rs.1
    let d := DELETION_COST ft + rd.1
    let i := INSERTION_COST ft + ri.1
    if s ≤ d ∧ s ≤ i then (s, (some x, some y) :: rs.2)
    else if d ≤ i then (d, (some x, none) :: rd.2)
    else (i, (none, some y) :: ri.2)
termination_by s1 s2 => s1.length + s2.length
decreasing_by all_goals (simp [List.length_cons]; try omega)

/-! ## Alignment engine lemmas -/

lemma differing_self {F : Nat} (f : Fin F → FVal) : differing f f = 0 := by
  simp [differing]

lemma differing_comm {F : Nat} (f1 f2 : Fin F → FVal) : differing f1 f2 = differing f2 f1 := by
  unfold differing
  congr 1
  ext i
  simp [ne_comm]

lemma differing_le {F : Nat} (f1 f2 : Fin F → FVal) : differing f1 f2 ≤ F := by
  have h := Finset.card_filter_le Finset.univ (fun i => f1 i ≠ f2 i)
  simpa using h

lemma phonological_cost_self {Seg : Type} [DecidableEq Seg] (ft : FT Seg) (a : Option Seg) :
    phonological_cost ft a a = 0 := by
  simp [phonological_cost]

lemma phonological_cost_comm {Seg : Type} [DecidableEq Seg] (ft : FT Seg) (a b : Option Seg) :
    phonological_cost ft a b = phonological_cost ft b a := by
  rcases a with _ | x <;> rcases b with _ | y
  · rfl
  · simp [phonological_cost, INSERTION_COST, DELETION_COST]
  · simp [phonological_cost, INSERTION_COST, DELETION_COST]
  · by_cases hxy : x = y
    · subst hxy; rfl
    · have hyx : ¬ y = x := fun h => hxy h.symm
      simp only [phonological_cost, Option.some.injEq, hxy, hyx, if_false]
      rcases hfx : ft.fts x with _ | f1 <;> rcases hfy : ft.fts y with _ | f2 <;>
        simp [hfx, hfy, differing_comm]

lemma align_cost_cons {Seg : Type} [DecidableEq Seg] (ft : FT Seg) (x y : Seg)
    (xs ys : List Seg) :
    (align_segments ft (x :: xs) (y :: ys)).1 =
      min (phonological_cost ft (some x) (some y) + (align_segments ft xs ys).1)
        (min (DELETION_COST ft + (align_segments ft xs (y :: ys)).1)
          (INSERTION_COST ft + (align_segments ft (x :: xs) ys).1)) := by
  rw [align_segments]
  split_ifs with h1 h2 <;> simp <;> omega

lemma align_nil_swap {Seg : Type} [DecidableEq Seg] (ft : FT Seg) (l : List Seg) :
    (align_segments ft l []).1 = (align_segments ft [] l).1 := by
  induction l with
  | nil => rfl
  | cons u us ih =>
    rw [align_segments, align_segments]
    rw [ih]
    rfl

/-- C3.  Aligning a sequence with itself gives the all-substitution
alignment at zero total cost, every aligned pair is a substitution pair of
equal segments with zero phonological cost, and a feature vector differs
from itself in zero features. -/
theorem claim_c3 {Seg : Type} [DecidableEq Seg] (ft : FT Seg) (seq : List Seg) :
    align_segments ft seq seq = (0, seq.map fun s => (some s, some s)) ∧
    (∀ p ∈ (align_segments ft seq seq).2, phonological_cost ft p.1 p.2 = 0) ∧
    (∀ f : Fin ft.F → FVal, differing f f = 0) := by
  have key : align_segments ft seq seq = (0, seq.map fun s => (some s, some s)) := by
    induction seq with
    | nil => simp [align_segments]
    | cons a xs ih =>
      rw [align_segments]
      rw [ih, phonological_cost_self]
      have hc : (0 : Nat) + 0 ≤ DELETION_COST ft + (align_segments ft xs (a :: xs)).1 ∧
          (0 : Nat) + 0 ≤ INSERTION_COST ft + (align_segments ft (a :: xs) xs).1 :=
        ⟨Nat.zero_le _, Nat.zero_le _⟩
      rw [if_pos hc]
      simp
  refine ⟨key, ?_, fun f => differing_self f⟩
  intro p hp
  rw [key] at hp
  obtain ⟨s, _, rfl⟩ := List.mem_map.1 hp
  exact phonological_cost_self ft (some s)

/-- C4.  The minimum total alignment cost is symmetric in its two
sequences: swapping the sequences swaps deletions with insertions (both
cost `F + 1`) and the per-pair substitution cost is symmetric. -/
theorem claim_c4 {Seg : Type} [DecidableEq Seg] (ft : FT Seg) (a b : List Seg) :
    (align_segments ft a b).1 = (align_segments ft b a).1 := by
  suffices h : ∀ n (x y : List Seg), x.length + y.length = n →
      (align_segments ft x y).1 = (align_segments ft y x).1 from h _ a b rfl
  intro n
  induction n using Nat.strong_induction_on with
  | _ n ih =>
    intro x y hxy
    match x, y with
    | [], [] => rfl
    | u :: us, [] => exact align_nil_swap ft (u :: us)
    | [], v :: vs => exact (align_nil_swap ft (v :: vs)).symm
    | u :: us, v :: vs =>
      have hs : us.length + vs.length < n := by
        subst hxy; simp only [List.length_cons]; omega
      have hd : us.length + (v :: vs).length < n := by
        subst hxy; simp only [List.length_cons]; omega
      have hi : (u :: us).length + vs.length < n := by
        subst hxy; simp only [List.length_cons]; omega
      have h1 := ih _ hs us vs rfl
      have h2 := ih _ hd us (v :: vs) rfl
      have h3 := ih _ hi (u :: us) vs rfl
      rw [align_cost_cons, align_cost_cons, phonological_cost_comm, h1, h2, h3]
      simp only [INSERTION_COST, DELETION_COST]
      omega

/-- C5.  Substitution cost is bounded by `F = MAX_FEATURE_DIFFS` (0 on
equal segments, `UNKNOWN_COST = F` when a feature vector is missing,
otherwise the differing-feature count, itself at most `F`); insertion and
deletion each cost exactly `F + 1`, so any substitution is strictly
cheaper than an insert/delete pair. -/
theorem claim_c5 {Seg : Type} [DecidableEq Seg] (ft : FT Seg) (a b : Seg) :
    phonological_cost ft (some a) (some b) ≤ MAX_FEATURE_DIFFS ft ∧
    INSERTION_COST ft = MAX_FEATURE_DIFFS ft + 1 ∧
    DELETION_COST ft = MAX_FEATURE_DIFFS ft + 1 ∧
    phonological_cost ft (some a) (some b) < INSERTION_COST ft + DELETION_COST ft ∧
    (a = b → phonological_cost ft (some a) (some b) = 0) ∧
    (a ≠ b → ft.fts a = none ∨ ft.fts b = none →
      phonological_cost ft (some a) (some b) = UNKNOWN_COST ft) ∧
    (∀ f1 f2, a ≠ b → ft.fts a = some f1 → ft.fts b = some f2 →
      phonological_cost ft (some a) (some b) = differing f1 f2) := by
  have hle : phonological_cost ft (some a) (some b) ≤ MAX_FEATURE_DIFFS ft := by
    by_cases hab : a = b
    · subst hab; rw [phonological_cost_self]; exact Nat.zero_le _
    · simp only [phonological_cost, Option.some.injEq, hab, if_false]
      rcases hfx : ft.fts a with _ | f1 <;> rcases hfy : ft.fts b with _ | f2 <;>
        simp [UNKNOWN_COST, MAX_FEATURE_DIFFS, differing_le]
  refine ⟨hle, rfl, rfl, ?_, ?_, ?_, ?_⟩
  · have : INSERTION_COST ft + DELETION_COST ft = MAX_FEATURE_DIFFS ft + 1 + (MAX_FEATURE_DIFFS ft + 1) := rfl
    omega
  · intro hab; subst hab; exact phonological_cost_self ft (some a)
  · intro hab hnone
    simp only [phonological_cost, Option.some.injEq, hab, if_false]
    rcases hfa : ft.fts a with _ | g1 <;> rcases hfb : ft.fts b with _ | g2 <;>
      simp_all
  · intro f1 f2 hab h1 h2
    simp only [phonological_cost, Option.some.injEq, hab, if_false]
    rw [h1, h2]

/-- A concrete two-feature Feature Lookup used by the C5 witness: segment
`0` is known, every other segment is unknown. -/
def ftW : FT Nat :=
  ⟨2, fun n => if n = 0 then some (fun _ => FVal.plus) else none⟩

/-- Witness for C5 at the concrete Feature Lookup `ftW` and segments 0, 1. -/
theorem claim_c5_witness :
    (0 : Nat) ≠ 1 ∧
    (phonological_cost ftW (some 0) (some 1) ≤ MAX_FEATURE_DIFFS ftW ∧
      INSERTION_COST ftW = MAX_FEATURE_DIFFS ftW + 1 ∧
      DELETION_COST ftW = MAX_FEATURE_DIFFS ftW + 1 ∧
      phonological_cost ftW (some 0) (some 1) < INSERTION_COST ftW + DELETION_COST ftW ∧
      ((0 : Nat) = 1 → phonological_cost ftW (some 0) (some 1) = 0) ∧
      ((0 : Nat) ≠ 1 → ftW.fts 0 = none ∨ ftW.fts 1 = none →
        phonological_cost ftW (some 0) (some 1) = UNKNOWN_COST ftW) ∧
      (∀ f1 f2, (0 : Nat) ≠ 1 → ftW.fts 0 = some f1 → ftW.fts 1 = some f2 →
        phonological_cost ftW (some 0) (some 1) = differing f1 f2)) :=
  ⟨by decide, claim_c5 ftW 0 1⟩

/-! ## Corpus store and aggregate indexer (backend/build_index.py) -/

/-- First-match association-list lookup, the `key in dict` / `dict[key]`
pair for the insertion-ordered index. -/
def alookup : List (Key × Nat) → Key → Option Nat
  | [], _ => none
  | (k, v) :: rest, key => if k = key then some v else alookup rest key

/-- Python `text.split(":", 1)` when `":" in text`: the part before the
first colon and the remainder; `none` when the text has no colon. -/
def splitColon : Str → Option (Str × Str)
  | [] => none
  | c :: rest =>
    if c = ':' then some ([], rest)
    else (splitColon rest).map fun p => (c :: p.1, p.2)

/-- Python `s.split(" ")[0]`: the first space-delimited token. -/
def firstToken (s : Str) : Str := s.takeWhile (· ≠ ' ')

/-- The reverse descendant edges contributed by one entry
(build_index.py lines 92-101): for each descendant text of the form
`"<lang>: <word> <gloss…>"`, an edge from the entry's key to
`lower(word) + "_" + lower(lang)`. -/
def linksOf (index_key : Key) (e : Entry) : List (Key × Key) :=
  e.descendants.filterMap fun text =>
    match splitColon text with
    | none => none
    | some p =>
      let lang := lower (strip p.1)
      let child_word := firstToken (strip p.2)
      if child_word ≠ [] then some (index_key, lower child_word ++ '_' :: lang)
      else none

/-! ## Bounded top-N min-heaps (heapq in build_index.py)

The heaps are modelled by their ordered contents: `heapq.heappush` is
ordered insertion into the ascending list and `heapq.heappop` removes the
minimum, the head.  The persisted leaderboards read only the heap's
contents (`sorted(heap, reverse=True)`), which this representation
determines exactly. -/

/-- `heapq.heappush` followed by `heapq.heappop` when the heap exceeds
`N`: bounded top-N selection. -/
def boundedPush {α : Type} [LinearOrder α] (N : Nat) (h : List α) (t : α) : List α :=
  let h2 := List.orderedInsert (· ≤ ·) t h
  if N < h2.length then h2.drop 1 else h2

/-- A heap element `(metric, word, lang_code)` under Python's
lexicographic tuple comparison (numbers by value, strings by code
point). -/
abbrev HeapTup : Type := Lex (Nat × Lex (Str × Str))

/-- `TOP_N = 100` from build_index.py. -/
def TOP_N : Nat := 100

/-- The sign-language / gloss-system codes excluded from the longest-word
category. -/
def SIGN_LANG_CODES : List Str :=
  ["ase".data, "icl".data, "isg".data, "gsg".data, "fsl".data, "dgs".data, "bfi".data,
   "sfb".data, "vgt".data, "rsl".data, "tsl".data]

/-- The accumulating state of the index build: the key-to-byte-offset
index, the record counter, the set of all entry keys (as the insertion
sequence), the reverse descendant edge list, and the current file
position (`jsonl_file.tell()`). -/
structure BuildState where
  word_lang_index : List (Key × Nat)
  record_count : Nat
  all_entry_keys : List Key
  descendant_links : List (Key × Key)
  offset : Nat
  longest_words_heap : List HeapTup
  most_translations_heap : List HeapTup
deriving DecidableEq

/-- One iteration of the build loop (build_index.py lines 57-107): record
the byte offset before reading the line, decode it (a decoding failure
skips the line without counting it), lowercase word and `lang_code`,
insert the key at the recorded offset only if absent, push into the
longest-words heap (excluding sign languages and phrases) and the
most-translations heap (entries with at least one translation), extend
the entry-key set and the reverse descendant edges, and count the
record. -/
def buildStep (decode : Str → Option Entry) (st : BuildState) (line : Str) : BuildState :=
  let byte_offset := st.offset
  let stN : BuildState := { st with offset := st.offset + line.length }
  match decode line with
  | none => stN
  | some entry =>
    let word := lower (entry.word.getD [])
    let lang_code := lower (entry.lang_code.getD [])
    if word ≠ [] ∧ lang_code ≠ [] then
      let index_key := word ++ '_' :: lang_code
      let pos := lower (entry.pos.getD [])
      { stN with
        word_lang_index :=
          if alookup stN.word_lang_index index_key = none then
            stN.word_lang_index ++ [(index_key, byte_offset)]
          else stN.word_lang_index
        longest_words_heap :=
          if lang_code ∉ SIGN_LANG_CODES ∧ pos ≠ "phrase".data then
            boundedPush TOP_N stN.longest_words_heap
              (toLex (word.length, toLex (word, lang_code)))
          else stN.longest_words_heap
        most_translations_heap :=
          if 0 < entry.translations.length then
            boundedPush TOP_N stN.most_translations_heap
              (toLex (entry.translations.length, toLex (word, lang_code)))
          else stN.most_translations_heap
        all_entry_keys := stN.all_entry_keys ++ [index_key]
        descendant_links := stN.descendant_links ++ linksOf index_key entry
        record_count := stN.record_count + 1 }
    else { stN with record_count := stN.record_count + 1 }

/-- `build_index_from_jsonl`: stream the corpus lines through `buildStep`
from the empty state.  `decode` stands for `json.loads(line.strip())`,
returning `none` on a `JSONDecodeError`. -/
def build_index_from_jsonl (decode : Str → Option Entry) (lines : List Str) : BuildState :=
  lines.foldl (buildStep decode) ⟨[], 0, [], [], 0, [], []⟩

/-- Byte offset of the start of line `i`: the total length of the lines
before it. -/
def startOff (lines : List Str) (i : Nat) : Nat :=
  ((lines.take i).map List.length).sum

/-- The index key a corpus line derives, if any: the line must decode and
both its lowercased `word` and `lang_code` must be nonempty. -/
def deriveKey (decode : Str → Option Entry) (line : Str) : Option Key :=
  match decode line with
  | none => none
  | some e =>
    let w := lower (e.word.getD [])
    let l := lower (e.lang_code.getD [])
    if w ≠ [] ∧ l ≠ [] then some (w ++ '_' :: l) else none

/-- Position of the first corpus line deriving `key`. -/
def firstDeriving (decode : Str → Option Entry) (key : Key) : List Str → Option Nat
  | [] => none
  | line :: rest =>
    if deriveKey decode line = some key then some 0
    else (firstDeriving decode key rest).map (· + 1)

/-- Model of `mm.seek(offset); mm.readline()`: the rest of the line the
byte at `offset` falls into. -/
def readAt : List Str → Nat → Option Str
  | [], _ => none
  | line :: rest, off =>
    if off < line.length then some (line.drop off) else readAt rest (off - line.length)

/-- The query key `f"{word.lower()}_{lang_code.lower()}"` of
`get_word_data`. -/
def mkKey (word lang_code : Str) : Key := lower word ++ '_' :: lower lang_code

/-- `get_word_data(word, lang_code)` from api_routes/word_data.py: look up
the query key in the index, seek to the stored byte offset, read one line
and decode it. -/
def get_word_data (idx : List (Key × Nat)) (lines : List Str) (decode : Str → Option Entry)
    (word lang_code : Str) : Option Entry :=
  match alookup idx (mkKey word lang_code) with
  | none => none
  | some off =>
    match readAt lines off with
    | none => none
    | some line => decode line

/-! ## Memoized descendant counting (build_index.py, count_descendants_cached) -/

/-- The generator sum `sum(count(child) + 1 for child in children if
child != root_key)` with a recursion budget: `none` propagates a budget
exhaustion from any recursive call. -/
def sumChildren (recur : Key → Option Nat) (root_key : Key) : List Key → Option Nat
  | [] => some 0
  | c :: rest =>
    if c = root_key then sumChildren recur root_key rest
    else
      match recur c, sumChildren recur root_key rest with
      | some n, some m => some (n + 1 + m)
      | _, _ => none

/-- `count_descendants_cached(root_key)` rendered with explicit fuel.
`lru_cache` caches only completed calls, so a re-entrant call on a cycle
recurses like the plain recursion; `none` for every fuel is the
shallow-embedding rendering of that infinite recursion (Python's
`RecursionError`). -/
def count_descendants (links : Key → List Key) : Nat → Key → Option Nat
  | 0 => fun _ => none
  | fuel + 1 => fun root_key => sumChildren (count_descendants links fuel) root_key (links root_key)

lemma buildStep_offset (decode : Str → Option Entry) (st : BuildState) (line : Str) :
    (buildStep decode st line).offset = st.offset + line.length := by
  rcases hd : decode line with _ | e <;> simp only [buildStep, hd] <;> try rfl
  split_ifs <;> rfl

lemma buildStep_record_count (decode : Str → Option Entry) (st : BuildState) (line : Str) :
    (buildStep decode st line).record_count
      = st.record_count + (if (decode line).isSome then 1 else 0) := by
  rcases hd : decode line with _ | e <;> simp only [buildStep, hd, Option.isSome_none,
    Option.isSome_some, if_true, if_false] <;> try rfl
  split_ifs <;> rfl

lemma buildStep_index (decode : Str → Option Entry) (st : BuildState) (line : Str) :
    (buildStep decode st line).word_lang_index
      = match deriveKey decode line with
        | none => st.word_lang_index
        | some k =>
          if alookup st.word_lang_index k = none then
            st.word_lang_index ++ [(k, st.offset)]
          else st.word_lang_index := by
  rcases hd : decode line with _ | e <;> simp only [buildStep, deriveKey, hd] <;> try rfl
  split_ifs <;> simp_all

lemma foldl_build_offset (decode : Str → Option Entry) (lines : List Str) :
    ∀ st : BuildState, (List.foldl (buildStep decode) st lines).offset
      = st.offset + (lines.map List.length).sum := by
  induction lines with
  | nil => intro st; simp
  | cons l rest ih =>
    intro st
    simp only [List.foldl_cons, List.map_cons, List.sum_cons]
    rw [ih, buildStep_offset]
    omega

lemma build_offset (decode : Str → Option Entry) (lines : List Str) :
    (build_index_from_jsonl decode lines).offset = (lines.map List.length).sum := by
  unfold build_index_from_jsonl
  rw [foldl_build_offset]
  simp

lemma alookup_append_some {idx : List (Key × Nat)} {key : Key} {v : Nat}
    (h : alookup idx key = some v) (rest : List (Key × Nat)) :
    alookup (idx ++ rest) key = some v := by
  induction idx with
  | nil => simp [alookup] at h
  | cons p t ih =>
    rcases p with ⟨k, w⟩
    by_cases hk : k = key
    · subst hk
      simp [alookup] at h
      simp [alookup, h]
    · simp only [alookup, if_neg hk] at h
      simpa [alookup, hk] using ih h

lemma alookup_append_none {idx : List (Key × Nat)} {key : Key}
    (h : alookup idx key = none) (k2 : Key) (o : Nat) :
    alookup (idx ++ [(k2, o)]) key = if k2 = key then some o else none := by
  induction idx with
  | nil => simp [alookup]
  | cons p t ih =>
    rcases p with ⟨k, w⟩
    by_cases hk : k = key
    · subst hk
      simp [alookup] at h
    · simp only [alookup, if_neg hk] at h
      simpa [alookup, hk] using ih h

lemma firstDeriving_append_some {decode : Str → Option Entry} {key : Key} {ls : List Str}
    {i : Nat} (h : firstDeriving decode key ls = some i) (l2 : List Str) :
    firstDeriving decode key (ls ++ l2) = some i := by
  induction ls generalizing i with
  | nil => simp [firstDeriving] at h
  | cons l t ih =>
    simp only [firstDeriving] at h
    simp only [List.cons_append, firstDeriving, List.append_eq]
    by_cases hd : deriveKey decode l = some key
    · rw [if_pos hd] at h
      rw [if_pos hd]
      exact h
    · rw [if_neg hd] at h
      rw [if_neg hd]
      obtain ⟨j, hj, rfl⟩ := Option.map_eq_some'.1 h
      rw [ih hj]
      rfl

lemma firstDeriving_append_none {decode : Str → Option Entry} {key : Key} {ls : List Str}
    (h : firstDeriving decode key ls = none) (l : Str) :
    firstDeriving decode key (ls ++ [l])
      = if deriveKey decode l = some key then some ls.length else none := by
  induction ls with
  | nil => simp [firstDeriving]
  | cons x t ih =>
    simp only [firstDeriving] at h
    simp only [List.cons_append, firstDeriving, List.append_eq]
    by_cases hd : deriveKey decode x = some key
    · rw [if_pos hd] at h
      exact absurd h (by simp)
    · rw [if_neg hd] at h
      rw [if_neg hd]
      have ht : firstDeriving decode key t = none := Option.map_eq_none'.1 h
      rw [ih ht, List.length_cons]
      split_ifs <;> simp

lemma firstDeriving_lt {decode : Str → Option Entry} {key : Key} {ls : List Str} {i : Nat}
    (h : firstDeriving decode key ls = some i) : i < ls.length := by
  induction ls generalizing i with
  | nil => simp [firstDeriving] at h
  | cons l t ih =>
    simp only [firstDeriving] at h
    by_cases hd : deriveKey decode l = some key
    · rw [if_pos hd] at h
      obtain rfl : (0 : Nat) = i := Option.some.inj h
      simp
    · rw [if_neg hd] at h
      obtain ⟨j, hj, rfl⟩ := Option.map_eq_some'.1 h
      simpa [List.length_cons] using ih hj

lemma firstDeriving_spec {decode : Str → Option Entry} {key : Key} {ls : List Str} {i : Nat}
    (h : firstDeriving decode key ls = some i) :
    deriveKey decode (ls.getD i []) = some key := by
  induction ls generalizing i with
  | nil => simp [firstDeriving] at h
  | cons l t ih =>
    simp only [firstDeriving] at h
    by_cases hd : deriveKey decode l = some key
    · rw [if_pos hd] at h
      obtain rfl : (0 : Nat) = i := Option.some.inj h
      simpa [List.getD] using hd
    · rw [if_neg hd] at h
      obtain ⟨j, hj, rfl⟩ := Option.map_eq_some'.1 h
      simpa [List.getD] using ih hj

lemma startOff_append_of_le {ls : List Str} {i : Nat} (h : i ≤ ls.length) (l2 : List Str) :
    startOff (ls ++ l2) i = startOff ls i := by
  unfold startOff
  rw [List.take_append_of_le_length h]

lemma startOff_full (ls : List Str) (l2 : List Str) :
    startOff (ls ++ l2) ls.length = (ls.map List.length).sum := by
  unfold startOff
  rw [List.take_left]

lemma buildStep_index_none {decode : Str → Option Entry} {line : Str}
    (h : deriveKey decode line = none) (st : BuildState) :
    (buildStep decode st line).word_lang_index = st.word_lang_index := by
  rw [buildStep_index, h]

lemma buildStep_index_some {decode : Str → Option Entry} {line : Str} {k : Key}
    (h : deriveKey decode line = some k) (st : BuildState) :
    (buildStep decode st line).word_lang_index
      = if alookup st.word_lang_index k = none then
          st.word_lang_index ++ [(k, st.offset)]
        else st.word_lang_index := by
  rw [buildStep_index, h]

lemma build_append (decode : Str → Option Entry) (ls : List Str) (l : Str) :
    build_index_from_jsonl decode (ls ++ [l])
      = buildStep decode (build_index_from_jsonl decode ls) l := by
  unfold build_index_from_jsonl
  rw [List.foldl_append]
  rfl

/-- The word-lang index built by `build_index_from_jsonl` maps each key to
the byte offset of the start of the first corpus line deriving that key,
and holds no other keys. -/
lemma build_alookup (decode : Str → Option Entry) (lines : List Str) (key : Key) :
    alookup (build_index_from_jsonl decode lines).word_lang_index key
      = (firstDeriving decode key lines).map fun i => startOff lines i := by
  induction lines using List.reverseRecOn with
  | nil => rfl
  | append_singleton ls l ih =>
    rw [build_append]
    rcases hdk : deriveKey decode l with _ | k
    · rw [buildStep_index_none hdk]
      rcases hfd : firstDeriving decode key ls with _ | i
      · have hnone : alookup (build_index_from_jsonl decode ls).word_lang_index key = none := by
          rw [ih, hfd]; rfl
        rw [hnone, firstDeriving_append_none hfd, if_neg (by simp [hdk])]
        rfl
      · have hlt := firstDeriving_lt hfd
        have hsome : alookup (build_index_from_jsonl decode ls).word_lang_index key
            = some (startOff ls i) := by rw [ih, hfd]; rfl
        rw [hsome, firstDeriving_append_some hfd [l]]
        simp [startOff_append_of_le (le_of_lt hlt)]
    · rw [buildStep_index_some hdk]
      by_cases hin : alookup (build_index_from_jsonl decode ls).word_lang_index k = none
      · rw [if_pos hin]
        rcases hfd : firstDeriving decode key ls with _ | i
        · have hnone : alookup (build_index_from_jsonl decode ls).word_lang_index key = none := by
            rw [ih, hfd]; rfl
          rw [alookup_append_none hnone, firstDeriving_append_none hfd]
          by_cases hkk : k = key
          · subst hkk
            rw [if_pos rfl, if_pos hdk]
            rw [build_offset]
            simp [startOff_full]
          · rw [if_neg hkk, if_neg (by simp [hdk, hkk])]
            rfl
        · have hlt := firstDeriving_lt hfd
          have hsome : alookup (build_index_from_jsonl decode ls).word_lang_index key
              = some (startOff ls i) := by rw [ih, hfd]; rfl
          rw [alookup_append_some hsome, firstDeriving_append_some hfd [l]]
          simp [startOff_append_of_le (le_of_lt hlt)]
      · rw [if_neg hin]
        rcases hfd : firstDeriving decode key ls with _ | i
        · have hnone : alookup (build_index_from_jsonl decode ls).word_lang_index key = none := by
            rw [ih, hfd]; rfl
          have hkk : ¬ deriveKey decode l = some key := by
            rw [hdk]
            intro hcon
            injection hcon with hk2
            exact hin (hk2 ▸ hnone)
          rw [hnone, firstDeriving_append_none hfd, if_neg hkk]
          rfl
        · have hlt := firstDeriving_lt hfd
          have hsome : alookup (build_index_from_jsonl decode ls).word_lang_index key
              = some (startOff ls i) := by rw [ih, hfd]; rfl
          rw [hsome, firstDeriving_append_some hfd [l]]
          simp [startOff_append_of_le (le_of_lt hlt)]

/-! ## Bounded top-N heap lemmas -/

lemma foldl_build_record_count (decode : Str → Option Entry) (lines : List Str) :
    ∀ st : BuildState, (List.foldl (buildStep decode) st lines).record_count
      = st.record_count + (lines.filter fun l => (decode l).isSome).length := by
  induction lines with
  | nil => intro st; simp
  | cons l rest ih =>
    intro st
    simp only [List.foldl_cons]
    rw [ih, buildStep_record_count]
    rcases hd : decode l with _ | e <;> simp [List.filter_cons, hd] <;> omega

lemma filter_decode_partition (decode : Str → Option Entry) (lines : List Str) :
    (lines.filter fun l => (decode l).isSome).length
      + (lines.filter fun l => decode l = none).length = lines.length := by
  induction lines with
  | nil => rfl
  | cons l rest ih =>
    rcases hd : decode l with _ | e <;> simp [List.filter_cons, hd] <;> omega

/-- A decoder on which every line fails, exercising the
`json.JSONDecodeError` path of the build loop. -/
def decodeNone : Str → Option Entry := fun _ => none

/-- Counterexample to C8 as stated: a corpus of one undecodable line is
processed, yet the build's record count stays 0 — the decoding failure is
skipped without being counted anywhere (`record_count += 1` sits after the
decode inside the `try`, and the `except` clause just `continue`s). -/
theorem claim_c8_counterexample :
    decodeNone ("x".data) = none ∧
    (["x".data] : List Str).length = 1 ∧
    (build_index_from_jsonl decodeNone ["x".data]).record_count = 0 ∧
    (build_index_from_jsonl decodeNone ["x".data]).record_count
      ≠ (["x".data] : List Str).length := by
  refine ⟨rfl, rfl, rfl, ?_⟩
  decide

/-- C8 (amended).  A line that fails JSON decoding is skipped without
aborting: the build step only advances the file position, touching neither
the index, the entry-key set, the descendant links nor the record count;
the record count equals the number of successfully decoded lines, so the
failures are reflected only as `total lines - record_count`. -/
theorem claim_c8 (decode : Str → Option Entry) (lines : List Str) :
    (build_index_from_jsonl decode lines).record_count
      = (lines.filter fun l => (decode l).isSome).length ∧
    lines.length = (build_index_from_jsonl decode lines).record_count
      + (lines.filter fun l => decode l = none).length ∧
    (∀ st line, decode line = none →
      buildStep decode st line = { st with offset := st.offset + line.length }) := by
  refine ⟨?_, ?_, ?_⟩
  · unfold build_index_from_jsonl
    rw [foldl_build_record_count]
    simp
  · unfold build_index_from_jsonl
    rw [foldl_build_record_count]
    have := filter_decode_partition decode lines
    simp only [List.foldl_nil]
    omega
  · intro st line h
    simp only [buildStep, h]

/-- Witness for the amended C8 at a concrete undecodable line. -/
theorem claim_c8_witness :
    decodeNone ("y".data) = none ∧
    buildStep decodeNone ⟨[], 0, [], [], 0, [], []⟩ ("y".data)
      = { (⟨[], 0, [], [], 0, [], []⟩ : BuildState) with
          offset := (0 : Nat) + ("y".data).length } :=
  ⟨rfl, (claim_c8 decodeNone []).2.2 ⟨[], 0, [], [], 0, [], []⟩ ("y".data) rfl⟩

/-! ## C2: the descendant counter on a two-node cycle -/

/-- Key of the first entry of the cyclic reverse descendant graph. -/
def cycKeyA : Key := "a_en".data

/-- Key of the second entry of the cyclic reverse descendant graph. -/
def cycKeyB : Key := "b_de".data

/-- A reverse descendant graph with the edge cycle A→B→A, as
`descendant_links` would hold it after indexing a corpus in which each of
the two entries lists the other as a descendant. -/
def cycLinks : Key → List Key := fun k =>
  if k = cycKeyA then [cycKeyB] else if k = cycKeyB then [cycKeyA] else []

/-- C2 fails on the code: on the A→B→A cycle the counter exhausts every
recursion budget — `lru_cache` caches only completed calls and the
`child != root_key` filter only guards self-loops, so `count(A)` calls
`count(B)` which re-enters `count(A)` before anything is cached, and the
recursion never returns (Python raises `RecursionError`). -/
theorem claim_c2_diverges :
    cycLinks cycKeyA = [cycKeyB] ∧ cycLinks cycKeyB = [cycKeyA] ∧
    ∀ fuel, count_descendants cycLinks fuel cycKeyA = none ∧
      count_descendants cycLinks fuel cycKeyB = none := by
  refine ⟨rfl, rfl, ?_⟩
  intro fuel
  induction fuel with
  | zero => exact ⟨rfl, rfl⟩
  | succ n ih =>
    constructor
    · show sumChildren (count_descendants cycLinks n) cycKeyA (cycLinks cycKeyA) = none
      have h1 : cycLinks cycKeyA = [cycKeyB] := rfl
      rw [h1]
      simp only [sumChildren]
      rw [if_neg (by decide : ¬ cycKeyB = cycKeyA)]
      rw [ih.2]
    · show sumChildren (count_descendants cycLinks n) cycKeyB (cycLinks cycKeyB) = none
      have h1 : cycLinks cycKeyB = [cycKeyA] := rfl
      rw [h1]
      simp only [sumChildren]
      rw [if_neg (by decide : ¬ cycKeyA = cycKeyB)]
      rw [ih.1]

/-! ## C1: lookup after indexing -/

lemma readAt_startOff {lines : List Str} (hne : ∀ l ∈ lines, l ≠ []) :
    ∀ {i : Nat}, i < lines.length →
      readAt lines (startOff lines i) = some (lines.getD i []) := by
  induction lines with
  | nil => intro i hi; simp at hi
  | cons l rest ih =>
    intro i hi
    match i with
    | 0 =>
      have hl : l ≠ [] := hne l (by simp)
      have hlen : 0 < l.length := List.length_pos.2 hl
      simp only [startOff, List.take_zero, List.map_nil, List.sum_nil, readAt]
      rw [if_pos hlen]
      simp [List.getD]
    | j + 1 =>
      have hj : j < rest.length := by simpa [List.length_cons] using hi
      have hrest : ∀ m ∈ rest, m ≠ [] := fun m hm => hne m (by simp [hm])
      have hso : startOff (l :: rest) (j + 1) = l.length + startOff rest j := by
        simp [startOff, List.take_succ_cons]
      rw [hso]
      simp only [readAt]
      rw [if_neg (by omega)]
      have harith : l.length + startOff rest j - l.length = startOff rest j := by omega
      rw [harith, ih hrest hj]
      simp [List.getD]

lemma append_underscore_inj :
    ∀ {a c b d : Str}, '_' ∉ a → '_' ∉ c → a ++ '_' :: b = c ++ '_' :: d →
      a = c ∧ b = d := by
  intro a
  induction a with
  | nil =>
    intro c b d ha hc h
    cases c with
    | nil =>
      simp only [List.nil_append] at h
      exact ⟨rfl, (List.cons.inj h).2⟩
    | cons y cs =>
      simp only [List.nil_append, List.cons_append] at h
      have hy : '_' = y := (List.cons.inj h).1
      exact absurd (hy ▸ List.mem_cons_self y cs) hc
  | cons x xs ih =>
    intro c b d ha hc h
    cases c with
    | nil =>
      simp only [List.cons_append, List.nil_append] at h
      have hx : x = '_' := (List.cons.inj h).1
      exact absurd (hx ▸ List.mem_cons_self x xs) ha
    | cons y cs =>
      simp only [List.cons_append] at h
      have hx : x = y := (List.cons.inj h).1
      have ht := (List.cons.inj h).2
      have ha2 : '_' ∉ xs := fun hm => ha (List.mem_cons_of_mem x hm)
      have hc2 : '_' ∉ cs := fun hm => hc (List.mem_cons_of_mem y hm)
      obtain ⟨h1, h2⟩ := ih ha2 hc2 ht
      exact ⟨by rw [hx, h1], h2⟩

/-- The first corpus entry of the C1 counterexample: word `"a"` in
language `"b_c"`. -/
def entA : Entry := ⟨some "a".data, some "b_c".data, none, [], [], [], none, []⟩

/-- The second corpus entry of the C1 counterexample: word `"a_b"` in
language `"c"` — its index key collides with `entA`'s. -/
def entB : Entry := ⟨some "a_b".data, some "c".data, none, [], [], [], none, []⟩

/-- Decoder for the two-line C1 counterexample corpus. -/
def decodeC1 : Str → Option Entry := fun s =>
  if s = "x".data then some entA else if s = "y".data then some entB else none

/-- The C1 counterexample corpus: line 0 holds `entA`, line 1 holds
`entB`. -/
def linesC1 : List Str := ["x".data, "y".data]

/-- Counterexample to C1 as stated: the entry (`"a_b"`, `"c"`) is present
in the corpus at index-build time, but because its index key
`"a_b_c"` collides with the key of (`"a"`, `"b_c"`) — `"_"` joins word and
language without escaping — looking it up returns the record of the
earlier line, whose `word` and `lang_code` do not match the query even
case-insensitively. -/
theorem claim_c1_counterexample :
    decodeC1 ("y".data) = some entB ∧
    entB.word = some ("a_b".data) ∧
    entB.lang_code = some ("c".data) ∧
    get_word_data (build_index_from_jsonl decodeC1 linesC1).word_lang_index linesC1 decodeC1
      ("a_b".data) ("c".data) = some entA ∧
    lower (entA.word.getD []) ≠ lower ("a_b".data) ∧
    lower (entA.lang_code.getD []) ≠ lower ("c".data) := by
  refine ⟨rfl, rfl, rfl, rfl, by decide, by decide⟩

/-- C1 (amended).  When `lookup` returns a record, that record is the
decode of the first corpus line deriving the query key, and its
lowercased `word + "_" + lang_code` key equals the query's; the `word` and
`lang_code` fields themselves match case-insensitively whenever neither
lowercased word contains an underscore (with underscores the key is
ambiguous and the fields need not match). -/
theorem claim_c1 (decode : Str → Option Entry) (lines : List Str) (qw ql : Str) (r : Entry)
    (hne : ∀ l ∈ lines, l ≠ [])
    (h : get_word_data (build_index_from_jsonl decode lines).word_lang_index lines decode qw ql
      = some r) :
    mkKey (r.word.getD []) (r.lang_code.getD []) = mkKey qw ql ∧
    (∀ i, firstDeriving decode (mkKey qw ql) lines = some i →
      decode (lines.getD i []) = some r) ∧
    ('_' ∉ lower qw → '_' ∉ lower (r.word.getD []) →
      lower (r.word.getD []) = lower qw ∧ lower (r.lang_code.getD []) = lower ql) := by
  unfold get_word_data at h
  rcases halo : alookup (build_index_from_jsonl decode lines).word_lang_index (mkKey qw ql)
    with _ | off
  · rw [halo] at h
    exact absurd h (by simp)
  · simp only [halo] at h
    have hex : ∃ i, firstDeriving decode (mkKey qw ql) lines = some i ∧
        off = startOff lines i := by
      have hb := build_alookup decode lines (mkKey qw ql)
      rw [halo] at hb
      rcases hfd2 : firstDeriving decode (mkKey qw ql) lines with _ | i
      · rw [hfd2] at hb; simp at hb
      · rw [hfd2] at hb
        simp only [Option.map_some', Option.some.injEq] at hb
        exact ⟨i, rfl, hb⟩
    obtain ⟨i, hfdi, rfl⟩ := hex
    have hlt := firstDeriving_lt hfdi
    have hread : readAt lines (startOff lines i) = some (lines.getD i []) :=
      readAt_startOff hne hlt
    simp only [hread] at h
    have hdk := firstDeriving_spec hfdi
    simp only [deriveKey, h] at hdk
    by_cases hwl : lower (r.word.getD []) ≠ [] ∧ lower (r.lang_code.getD []) ≠ []
    · rw [if_pos hwl] at hdk
      have hkey : lower (r.word.getD []) ++ '_' :: lower (r.lang_code.getD []) = mkKey qw ql :=
        Option.some.inj hdk
      refine ⟨hkey, ?_, ?_⟩
      · intro j hj
        have hij : i = j := Option.some.inj (hfdi.symm.trans hj)
        rw [← hij]
        exact h
      · intro hq hr
        have hkey2 : lower (r.word.getD []) ++ '_' :: lower (r.lang_code.getD [])
            = lower qw ++ '_' :: lower ql := hkey
        exact append_underscore_inj hr hq hkey2
    · rw [if_neg hwl] at hdk
      exact absurd hdk (by simp)

/-- Witness for the amended C1 at the concrete two-line corpus: the key of
the returned record equals the query key. -/
theorem claim_c1_witness :
    mkKey (entA.word.getD []) (entA.lang_code.getD []) = mkKey ("a_b".data) ("c".data) :=
  (claim_c1 decodeC1 linesC1 ("a_b".data) ("c".data) entA (by decide) rfl).1

/-! ## Descendant hierarchy (backend/services, build_descendant_hierarchy) -/

/-- A node of the descendant tree: the child entry's `word`, `lang_code`
and `expansion`, plus its recursively built children. -/
inductive DNode where
  | mk : Option Str → Option Str → Option Str → List DNode → DNode

/-- Number of nodes in a forest of descendant trees. -/
def sizeF : List DNode → Nat
  | [] => 0
  | DNode.mk _ _ _ cs :: rest => 1 + sizeF cs + sizeF rest

/-- `_normalize_for_match`: `None` for a missing or empty string, else the
stripped lowercased string. -/
def normalize_for_match (s : Option Str) : Option Str :=
  match s with
  | none => none
  | some t => if t = [] then none else some (lower (strip t))

/-- The language filter of the scan loop: skip `key` when a nonempty
`lang_code` is given and `key` does not end with `"_" + lang_code.lower()`. -/
def langFilterSkip (lang_code : Option Str) (key : Key) : Bool :=
  match lang_code with
  | none => false
  | some s => if s = [] then false else ! (('_' :: lower s).isSuffixOf key)

/-- Whether one etymology template cites the target: its `args["3"]` or
`args["tr"]`, normalized, equals the normalized target. -/
def tplMatches (target : Option Str) (tpl : EtyTpl) : Bool :=
  decide (normalize_for_match tpl.arg3 = target ∨ normalize_for_match tpl.tr = target)

/-- Whether an entry's `etymology_templates` cite the target. -/
def entryMatches (target : Option Str) (e : Entry) : Bool :=
  e.etymology_templates.any (tplMatches target)

/-- One iteration of the index scan of `build_descendant_hierarchy`:
apply the language filter, skip keys already visited, skip unreadable
entries, and on a template match mark the key visited, recurse through
`child` (the next-depth traversal) and append the child node.  `acc` is
the pair (results so far, visited set). -/
def scanStep (child : Option Str → Option Str → List Key → List DNode × List Key)
    (target lang_code : Option Str) (acc : List DNode × List Key)
    (kv : Key × Option Entry) : List DNode × List Key :=
  if langFilterSkip lang_code kv.1 then acc
  else if kv.1 ∈ acc.2 then acc
  else
    match kv.2 with
    | none => acc
    | some entry =>
      if entryMatches target entry then
        let sub := child entry.word entry.lang_code (kv.1 :: acc.2)
        (acc.1 ++ [DNode.mk entry.word entry.lang_code entry.expansion sub.1], sub.2)
      else acc

/-- The traversal with its remaining recursion budget
`fuel = max_depth - depth` made explicit: at budget 0 the depth cap fires
and the node gets no children; otherwise the whole index is scanned, the
shared visited set threading left to right and down the recursion. -/
def bdhFuel (index : List (Key × Option Entry)) :
    Nat → Option Str → Option Str → List Key → List DNode × List Key
  | 0 => fun _ _ visited => ([], visited)
  | fuel + 1 => fun word lang_code visited =>
      index.foldl (scanStep (bdhFuel index fuel) (normalize_for_match word) lang_code)
        ([], visited)

/-- `build_descendant_hierarchy(word, f, lang_code, depth, visited,
max_depth)`: the returned dict `{"name": word, "children": results}`,
with the recursion driven by the budget `max_depth - depth` (the guard
`depth >= max_depth` is exactly budget 0). -/
def build_descendant_hierarchy (index : List (Key × Option Entry)) (word : Option Str)
    (lang_code : Option Str := none) (depth : Nat := 0) (visited : List Key := [])
    (max_depth : Nat := 50) : Option Str × List DNode :=
  (word, (bdhFuel index (max_depth - depth) word lang_code visited).1)

/-- Invariant of the index scan, parametric in the behaviour of the
next-depth traversal: the visited set only grows, by distinct fresh keys,
and the number of emitted nodes equals the number of newly visited keys. -/
lemma scanStep_foldl_inv
    (child : Option Str → Option Str → List Key → List DNode × List Key)
    (target lang_code : Option Str)
    (hchild : ∀ w lc v, ∃ new, (child w lc v).2 = new ++ v ∧ new.Nodup ∧
      (∀ k ∈ new, k ∉ v) ∧ sizeF (child w lc v).1 = new.length) :
    ∀ (items : List (Key × Option Entry)) (rs : List DNode) (v : List Key),
      ∃ new rs2,
        List.foldl (scanStep child target lang_code) (rs, v) items = (rs ++ rs2, new ++ v) ∧
        new.Nodup ∧ (∀ k ∈ new, k ∉ v) ∧ sizeF rs2 = new.length := by
  intro items
  induction items with
  | nil =>
    intro rs v
    exact ⟨[], [], by simp, List.nodup_nil, by simp, by simp [sizeF]⟩
  | cons kv rest ih =>
    intro rs v
    simp only [List.foldl_cons]
    by_cases hskip : langFilterSkip lang_code kv.1 = true
    · have hstep : scanStep child target lang_code (rs, v) kv = (rs, v) := by
        unfold scanStep
        rw [if_pos hskip]
      rw [hstep]
      exact ih rs v
    · by_cases hvis : kv.1 ∈ v
      · have hstep : scanStep child target lang_code (rs, v) kv = (rs, v) := by
          unfold scanStep
          rw [if_neg hskip, if_pos hvis]
        rw [hstep]
        exact ih rs v
      · rcases hkv : kv.2 with _ | entry
        · have hstep : scanStep child target lang_code (rs, v) kv = (rs, v) := by
            unfold scanStep
            rw [if_neg hskip, if_neg hvis]
            simp only [hkv]
          rw [hstep]
          exact ih rs v
        · by_cases hm : entryMatches target entry = true
          · obtain ⟨new1, hv1, hnd1, hfresh1, hsz1⟩ :=
              hchild entry.word entry.lang_code (kv.1 :: v)
            have hstep : scanStep child target lang_code (rs, v) kv
                = (rs ++ [DNode.mk entry.word entry.lang_code entry.expansion
                    (child entry.word entry.lang_code (kv.1 :: v)).1],
                   (child entry.word entry.lang_code (kv.1 :: v)).2) := by
              unfold scanStep
              rw [if_neg hskip, if_neg hvis]
              simp only [hkv]
              rw [if_pos hm]
            rw [hstep, hv1]
            obtain ⟨new2, rs3, hfold, hnd2, hfresh2, hsz2⟩ :=
              ih (rs ++ [DNode.mk entry.word entry.lang_code entry.expansion
                (child entry.word entry.lang_code (kv.1 :: v)).1]) (new1 ++ kv.1 :: v)
            refine ⟨new2 ++ new1 ++ [kv.1],
              [DNode.mk entry.word entry.lang_code entry.expansion
                (child entry.word entry.lang_code (kv.1 :: v)).1] ++ rs3, ?_, ?_, ?_, ?_⟩
            · rw [hfold]
              simp [List.append_assoc]
            · rw [List.nodup_append, List.nodup_append]
              refine ⟨⟨hnd2, hnd1, ?_⟩, by simp, ?_⟩
              · intro k hk2 hk1
                exact hfresh2 k hk2 (by simp [hk1])
              · intro k hk hks
                simp only [List.mem_singleton] at hks
                subst hks
                rcases List.mem_append.1 hk with hk2 | hk1
                · exact hfresh2 _ hk2 (by simp)
                · exact hfresh1 _ hk1 (by simp)
            · intro k hk
              simp only [List.mem_append, List.mem_singleton] at hk
              rcases hk with (hk | hk) | hk
              · intro hkv2
                exact hfresh2 k hk (by simp [hkv2])
              · intro hkv2
                exact hfresh1 k hk (by simp [hkv2])
              · rw [hk]
                exact hvis
            · have h5 : sizeF (DNode.mk entry.word entry.lang_code entry.expansion
                    (child entry.word entry.lang_code (kv.1 :: v)).1 :: rs3)
                  = 1 + sizeF (child entry.word entry.lang_code (kv.1 :: v)).1
                    + sizeF rs3 := by
                simp [sizeF]
              simp only [List.singleton_append]
              rw [h5, hsz1, hsz2]
              simp only [List.length_append, List.length_cons, List.length_nil]
              omega
          · have hstep : scanStep child target lang_code (rs, v) kv = (rs, v) := by
              unfold scanStep
              rw [if_neg hskip, if_neg hvis]
              simp only [hkv]
              rw [if_neg hm]
            rw [hstep]
            exact ih rs v

/-- The visited-set invariant of the full traversal: the returned visited
set is the input plus a duplicate-free block of fresh keys, one per node
of the returned forest. -/
lemma bdhFuel_inv (index : List (Key × Option Entry)) :
    ∀ (fuel : Nat) (w lc : Option Str) (v : List Key),
      ∃ new, (bdhFuel index fuel w lc v).2 = new ++ v ∧ new.Nodup ∧
        (∀ k ∈ new, k ∉ v) ∧ sizeF (bdhFuel index fuel w lc v).1 = new.length := by
  intro fuel
  induction fuel with
  | zero =>
    intro w lc v
    exact ⟨[], by simp [bdhFuel], List.nodup_nil, by simp, by simp [bdhFuel, sizeF]⟩
  | succ n ih =>
    intro w lc v
    obtain ⟨new, rs2, hfold, hnd, hfresh, hsz⟩ :=
      scanStep_foldl_inv (bdhFuel index n) (normalize_for_match w) lc ih index [] v
    refine ⟨new, ?_, hnd, hfresh, ?_⟩
    · show (List.foldl (scanStep (bdhFuel index n) (normalize_for_match w) lc) ([], v)
        index).2 = new ++ v
      rw [hfold]
    · show sizeF (List.foldl (scanStep (bdhFuel index n) (normalize_for_match w) lc) ([], v)
        index).1 = new.length
      rw [hfold]
      simpa using hsz

/-- A template citing `w` as ancestor word form (`args["3"]`). -/
def tplCiting (w : Str) : EtyTpl := ⟨none, some w, none⟩

/-- Entry A of the deliberate descendant-reference cycle: word `"a"`,
whose etymology cites `"b"`. -/
def entryA : Entry := ⟨some "a".data, some "en".data, none, [], [tplCiting "b".data], [], none, []⟩

/-- Entry B of the deliberate descendant-reference cycle: word `"b"`,
whose etymology cites `"a"`. -/
def entryB : Entry := ⟨some "b".data, some "en".data, none, [], [tplCiting "a".data], [], none, []⟩

/-- The two-entry index with the A→B→A reference cycle. -/
def cycIndex : List (Key × Option Entry) :=
  [("a_en".data, some entryA), ("b_en".data, some entryB)]

/-- The finite tree the traversal produces on the cyclic corpus: b under
a, a under b, then the visited set stops the cycle. -/
def cycForest : List DNode :=
  [DNode.mk (some "b".data) (some "en".data) none
    [DNode.mk (some "a".data) (some "en".data) none []]]

/-- C6.  The depth cap returns a node with empty children as soon as
`depth >= max_depth` (default cap 50); on the deliberate A→B→A cycle
corpus the traversal terminates with the expected finite tree at the
default arguments; and starting from a duplicate-free visited set the
visited set never receives a key twice, so no index key is ever visited
twice on any root-to-node path. -/
theorem claim_c6 :
    (∀ (index : List (Key × Option Entry)) (w lc : Option Str) (depth : Nat)
      (v : List Key) (max_depth : Nat), max_depth ≤ depth →
        build_descendant_hierarchy index w lc depth v max_depth = (w, [])) ∧
    build_descendant_hierarchy cycIndex (some ("a".data)) = (some ("a".data), cycForest) ∧
    (∀ (index : List (Key × Option Entry)) (fuel : Nat) (w lc : Option Str)
      (v : List Key), v.Nodup → ((bdhFuel index fuel w lc v).2).Nodup) := by
  refine ⟨?_, rfl, ?_⟩
  · intro index w lc depth v max_depth hle
    unfold build_descendant_hierarchy
    rw [Nat.sub_eq_zero_of_le hle]
    rfl
  · intro index fuel w lc v hv
    obtain ⟨new, hnew, hnd, hfresh, _⟩ := bdhFuel_inv index fuel w lc v
    rw [hnew, List.nodup_append]
    exact ⟨hnd, hv, fun k hk hkv => hfresh k hk hkv⟩

/-- Witness for C6: the depth-cap clause applied at `depth = 5`,
`max_depth = 3`, and the no-revisit clause applied at the cyclic index
with an empty visited set. -/
theorem claim_c6_witness :
    ((3 : Nat) ≤ 5 ∧
      build_descendant_hierarchy cycIndex (some ("a".data)) none 5 [] 3
        = (some ("a".data), [])) ∧
    (([] : List Key).Nodup ∧
      ((bdhFuel cycIndex 2 (some ("a".data)) none []).2).Nodup) :=
  ⟨⟨by decide, claim_c6.1 cycIndex (some ("a".data)) none 5 [] 3 (by decide)⟩,
   ⟨List.nodup_nil, claim_c6.2.2 cycIndex 2 (some ("a".data)) none [] List.nodup_nil⟩⟩

/-- C10.  Across the entire returned tree — not only along single paths —
each emitted node consumes one key newly added to the single shared
visited set: the newly visited keys are pairwise distinct, disjoint from
the incoming visited set, and exactly as many as the nodes of the
returned forest.  Hence no index key appears as a node more than once
anywhere in the tree, and a key emitted in one branch is omitted from
every other branch. -/
theorem claim_c10 (index : List (Key × Option Entry)) (fuel : Nat) (w lc : Option Str)
    (v : List Key) :
    ∃ new, (bdhFuel index fuel w lc v).2 = new ++ v ∧ new.Nodup ∧
      (∀ k ∈ new, k ∉ v) ∧ sizeF (bdhFuel index fuel w lc v).1 = new.length :=
  bdhFuel_inv index fuel w lc v

/-! ## Ancestry chain (backend/api_routes/word_data.py, build_ancestry_chain) -/

/-- One step of the IPA-selection loop over a node's `sounds`: a
slash-delimited candidate always (re)sets the phonemic transcription, a
plain candidate sets the phonetic one only if none was set yet; empty or
missing candidates are skipped. -/
def pickIpaStep (acc : Option Str × Option Str) (s : Option Str) : Option Str × Option Str :=
  match s with
  | none => acc
  | some c =>
    if c = [] then acc
    else if c.head? = some '/' ∧ c.getLast? = some '/' then (acc.1, some c)
    else if acc.1 = none then (some c, acc.2)
    else acc

/-- The (ipa, phonemic_ipa) pair selected from a node's `sounds`. -/
def pickIpa (sounds : List (Option Str)) : Option Str × Option Str :=
  sounds.foldl pickIpaStep (none, none)

/-- Python truthiness of an optional transcription: present and
nonempty. -/
def usable (o : Option Str) : Bool :=
  match o with
  | none => false
  | some s => ! s.isEmpty

/-- One link of the flat ancestry chain. -/
structure ChainLink where
  word : Str
  lang_code : Str
  ipa : Option Str
  phonemic_ipa : Option Str
  node : Entry
  drift : ℚ

/-- The transcription chosen for a resolved node: the real IPA from its
`sounds` if any, otherwise the external AI estimate (which may itself be
absent). -/
def ancIpa (getNode : Str → Str → Entry) (aiIpa : Str → Str → Option Str → Option Str)
    (w lang : Str) : Option Str :=
  if (pickIpa (getNode w lang).sounds).1 = none then aiIpa w lang (getNode w lang).expansion
  else (pickIpa (getNode w lang).sounds).1

/-- The drift score of one hop: the feature edit distance of the two
transcriptions when both are usable (0 if the distance computation
fails), and 0 whenever either side is missing or empty. -/
def driftOf (fed : Str → Str → Option ℚ) (prev aipa : Option Str) : ℚ :=
  if usable prev ∧ usable aipa then (fed (prev.getD []) (aipa.getD [])).getD 0 else 0

/-- The chain link appended for one ancestor template. -/
def mkLink (getNode : Str → Str → Entry) (aiIpa : Str → Str → Option Str → Option Str)
    (fed : Str → Str → Option ℚ) (prev : Option Str) (w lang : Str) : ChainLink :=
  ⟨w, lang, ancIpa getNode aiIpa w lang, (pickIpa (getNode w lang).sounds).2,
    getNode w lang, driftOf fed prev (ancIpa getNode aiIpa w lang)⟩

/-- One iteration of the template walk of `build_ancestry_chain`: a
template carrying a truthy ancestor language (`args["2"]`) and word
(`args["3"]`) appends a link and updates `prev_ipa`; any other template is
skipped. -/
def ancestryStep (getNode : Str → Str → Entry) (aiIpa : Str → Str → Option Str → Option Str)
    (fed : Str → Str → Option ℚ) (acc : List ChainLink × Option Str) (tpl : EtyTpl) :
    List ChainLink × Option Str :=
  match tpl.arg2, tpl.arg3 with
  | some lang, some w =>
    if lang ≠ [] ∧ w ≠ [] then
      (acc.1 ++ [mkLink getNode aiIpa fed acc.2 w lang], ancIpa getNode aiIpa w lang)
    else acc
  | _, _ => acc

/-- `build_ancestry_chain(word, lang_code, max_depth)`: the root link
(drift 0) followed by one link per qualifying template of the root node's
`etymology_templates`, in template order.  `max_depth` is accepted and
unused, as in the source. -/
def build_ancestry_chain (getNode : Str → Str → Entry)
    (aiIpa : Str → Str → Option Str → Option Str) (fed : Str → Str → Option ℚ)
    (word lang_code : Str) (max_depth : Nat := 10) : List ChainLink :=
  ((getNode word lang_code).etymology_templates.foldl (ancestryStep getNode aiIpa fed)
    ([⟨word, lang_code, ancIpa getNode aiIpa word lang_code,
        (pickIpa (getNode word lang_code).sounds).2, getNode word lang_code, 0⟩],
      ancIpa getNode aiIpa word lang_code)).1

/-- Relation between consecutive chain links demanded by C9: a nonzero
drift needs usable transcriptions on both sides. -/
def chainR (a b : ChainLink) : Prop :=
  b.drift ≠ 0 → usable a.ipa = true ∧ usable b.ipa = true

lemma driftOf_ne_zero {fed : Str → Str → Option ℚ} {p a : Option Str}
    (h : driftOf fed p a ≠ 0) : usable p = true ∧ usable a = true := by
  unfold driftOf at h
  split_ifs at h with hg
  · exact hg
  · exact absurd rfl h

lemma head?_append_left {α : Type} {l : List α} (h : l ≠ []) (l2 : List α) :
    (l ++ l2).head? = l.head? := by
  cases l with
  | nil => exact absurd rfl h
  | cons a t => rfl

lemma ancestry_fold_inv (getNode : Str → Str → Entry)
    (aiIpa : Str → Str → Option Str → Option Str) (fed : Str → Str → Option ℚ)
    (tpls : List EtyTpl) :
    ∀ (chain : List ChainLink) (prev : Option Str),
      chain ≠ [] →
      chain.getLast?.map ChainLink.ipa = some prev →
      chain.head?.map ChainLink.drift = some 0 →
      List.Chain' chainR chain →
      (List.foldl (ancestryStep getNode aiIpa fed) (chain, prev) tpls).1 ≠ [] ∧
      ((List.foldl (ancestryStep getNode aiIpa fed) (chain, prev) tpls).1).getLast?.map
        ChainLink.ipa
        = some (List.foldl (ancestryStep getNode aiIpa fed) (chain, prev) tpls).2 ∧
      ((List.foldl (ancestryStep getNode aiIpa fed) (chain, prev) tpls).1).head?.map
        ChainLink.drift = some 0 ∧
      List.Chain' chainR (List.foldl (ancestryStep getNode aiIpa fed) (chain, prev) tpls).1 := by
  induction tpls with
  | nil =>
    intro chain prev h1 h2 h3 h4
    exact ⟨h1, h2, h3, h4⟩
  | cons tpl rest ih =>
    intro chain prev h1 h2 h3 h4
    simp only [List.foldl_cons]
    rcases ha2 : tpl.arg2 with _ | lang
    · have hstep : ancestryStep getNode aiIpa fed (chain, prev) tpl = (chain, prev) := by
        simp only [ancestryStep, ha2]
      rw [hstep]
      exact ih chain prev h1 h2 h3 h4
    · rcases ha3 : tpl.arg3 with _ | w
      · have hstep : ancestryStep getNode aiIpa fed (chain, prev) tpl = (chain, prev) := by
          simp only [ancestryStep, ha2, ha3]
        rw [hstep]
        exact ih chain prev h1 h2 h3 h4
      · by_cases hg : lang ≠ [] ∧ w ≠ []
        · have hstep : ancestryStep getNode aiIpa fed (chain, prev) tpl
              = (chain ++ [mkLink getNode aiIpa fed prev w lang],
                  ancIpa getNode aiIpa w lang) := by
            simp only [ancestryStep, ha2, ha3]
            rw [if_pos hg]
          rw [hstep]
          apply ih
          · simp
          · simp [mkLink]
          · rw [head?_append_left h1]
            exact h3
          · rw [List.chain'_append]
            refine ⟨h4, List.chain'_singleton _, ?_⟩
            intro p hp y hy
            simp only [List.head?_cons, Option.mem_def, Option.some.injEq] at hy
            subst hy
            intro hdrift
            have hd : usable prev = true ∧
                usable (ancIpa getNode aiIpa w lang) = true := driftOf_ne_zero hdrift
            have hpi : p.ipa = prev := by
              have hp2 : chain.getLast? = some p := hp
              rw [hp2] at h2
              simpa using h2
            exact ⟨by rw [hpi]; exact hd.1, hd.2⟩
        · have hstep : ancestryStep getNode aiIpa fed (chain, prev) tpl = (chain, prev) := by
            simp only [ancestryStep, ha2, ha3]
            rw [if_neg hg]
          rw [hstep]
          exact ih chain prev h1 h2 h3 h4

/-- C9.  The root link of the ancestry chain always carries drift 0, and
along the whole chain a nonzero drift score only appears on a link whose
own transcription and whose predecessor's transcription are both usable;
whenever either side is missing or empty the drift defaults to 0. -/
theorem claim_c9 (getNode : Str → Str → Entry)
    (aiIpa : Str → Str → Option Str → Option Str) (fed : Str → Str → Option ℚ)
    (word lang_code : Str) (max_depth : Nat) :
    (build_ancestry_chain getNode aiIpa fed word lang_code max_depth).head?.map
      ChainLink.drift = some 0 ∧
    List.Chain' chainR (build_ancestry_chain getNode aiIpa fed word lang_code max_depth) := by
  unfold build_ancestry_chain
  obtain ⟨h1, h2, h3, h4⟩ := ancestry_fold_inv getNode aiIpa fed
    (getNode word lang_code).etymology_templates
    [⟨word, lang_code, ancIpa getNode aiIpa word lang_code,
        (pickIpa (getNode word lang_code).sounds).2, getNode word lang_code, 0⟩]
    (ancIpa getNode aiIpa word lang_code)
    (by simp) (by simp) rfl (List.chain'_singleton _)
  exact ⟨h3, h4⟩

/-- A concrete resolver for the C9 witness: every node is bare, with no
sounds and no templates. -/
def getNodeW : Str → Str → Entry := fun w l => ⟨some w, some l, none, [], [], [], none, []⟩

/-- A concrete estimator for the C9 witness: never returns an estimate. -/
def aiIpaW : Str → Str → Option Str → Option Str := fun _ _ _ => none

/-- A concrete feature edit distance for the C9 witness. -/
def fedW : Str → Str → Option ℚ := fun _ _ => some 1

/-- Witness for C9 at concrete collaborators and a concrete query. -/
theorem claim_c9_witness :
    (build_ancestry_chain getNodeW aiIpaW fedW ("a".data) ("en".data) 10).head?.map
      ChainLink.drift = some 0 ∧
    List.Chain' chainR (build_ancestry_chain getNodeW aiIpaW fedW ("a".data) ("en".data) 10) :=
  claim_c9 getNodeW aiIpaW fedW ("a".data) ("en".data) 10
